import Mathlib

/-! Shallow embedding of the batch web-page auditor (`scraper.go`).

Strings are modelled as lists of Unicode code points (`Str`): the Go code
only compares, trims, concatenates and joins strings, so the code-point
level is faithful; the byte-level BOM prefix `EF BB BF` of `removeBOM`
corresponds exactly to a leading code point `U+FEFF` on valid UTF-8 input.

External effects are oracles:
  * the CSV decode of the uploaded bytes is a `CsvResult` (either the
    decoded records, or a decode error after some prefix of records);
  * the network is a function `fetch : Str → FetchOutcome` giving, per URL,
    a transport failure, an HTML parse failure (with status and elapsed
    time), or a parsed document;
  * `os.Create` for the output file is a Boolean `exportOk`.

A parsed HTML document (`HtmlDoc`) is abstracted to what the code reads
from it: the text content of every element named `title` in document order
(goquery `Find("title").Text()` concatenates the text of all matched
elements), and every anchor element with its `href` / `class` / `title`
attributes in document order.

The floating-point progress computation
`int(float64(i+1) / float64(totalUrls) * 100)` is modelled in IEEE
binary64 semantics: `roundD` rounds a rational to the nearest binary64
value (round to nearest, ties to even) and `goProgress` chains the two
int-to-float conversions, the correctly rounded division and
multiplication, and the final truncation. Subnormals and overflow are not
modelled: for any Go slice length (hence any realizable `totalUrls`),
every intermediate value lies in the binary64 normal range.
-/

/-- A Go string, as its sequence of Unicode code points. -/
abbrev Str := List Nat

/-- Embed a Lean string literal as a `Str`. -/
def str (s : String) : Str := s.toList.map Char.toNat

/-- `unicode.IsSpace` of Go: the Unicode White_Space code points. -/
def isSpaceRune (c : Nat) : Bool :=
  (9 ≤ c && c ≤ 13) || c == 32 || c == 0x85 || c == 0xA0 || c == 0x1680 ||
  (0x2000 ≤ c && c ≤ 0x200A) || c == 0x2028 || c == 0x2029 ||
  c == 0x202F || c == 0x205F || c == 0x3000

/-- `strings.TrimSpace`: drop leading and trailing white-space runes. -/
def trimSpace (s : Str) : Str :=
  ((s.dropWhile isSpaceRune).reverse.dropWhile isSpaceRune).reverse

/-- `removeBOM` of `scraper.go`: strip the UTF-8 byte-order-mark prefix
(bytes `EF BB BF`, i.e. a leading code point `U+FEFF`) when present. -/
def removeBOM (s : Str) : Str :=
  match s with
  | 0xFEFF :: rest => rest
  | _ => s

/-- One decoded CSV record: `encoding/csv` never yields an empty record,
so the first field is kept apart from the remaining fields. -/
structure CsvRecord where
  first : Str
  rest : List Str
deriving DecidableEq, Repr

/-- Outcome of decoding the uploaded batch bytes as CSV: either all
records, or a decode error hit after reading some prefix of records. -/
inductive CsvResult where
  | ok (records : List CsvRecord)
  | err (prefixRecords : List CsvRecord)
deriving DecidableEq, Repr

/-- The URL-collection loop of `wsHandler`: per record, normalize the
first field by `removeBOM(strings.TrimSpace(record[0]))` and keep it
when non-empty (empty results are skipped silently). -/
def extractURLs : List CsvRecord → List Str
  | [] => []
  | r :: rs =>
    let url := removeBOM (trimSpace r.first)
    if url = [] then extractURLs rs else url :: extractURLs rs

/-- An anchor element, with the attributes the code reads. `none` means
the attribute is absent (`s.Attr` then yields the empty string). -/
structure Anchor where
  href : Option Str
  classAttr : Option Str
  title : Option Str
deriving DecidableEq, Repr

/-- `s.Attr(name)` with the existence flag discarded: absent ↦ `""`. -/
def attrD (a : Option Str) : Str := a.getD []

/-- `s.AttrOr(name, default)`. -/
def attrOr (a : Option Str) (d : Str) : Str := a.getD d

/-- A parsed HTML document, abstracted to the parts the code reads:
`titleTexts` is the text content of each element named `title`, in
document order; `anchors` lists every `<a>` element in document order. -/
structure HtmlDoc where
  titleTexts : List Str
  anchors : List Anchor
deriving DecidableEq, Repr

/-- `doc.Find("title").Text()`: goquery concatenates the text contents of
every matched element, in document order. -/
def titleTextOf (doc : HtmlDoc) : Str := doc.titleTexts.flatten

/-- The `ignoredClasses` map of `scraper.go`, as the list of its keys
(full class-attribute strings). -/
def ignoredClasses : List Str :=
  [str "footer__copy-logo",
   str "header__upper-link",
   str "mp-share__toggle",
   str "mp-share__toggle  breadcrumbs__tag",
   str "mp-link mp-link--dark localisation-toggle localisation-setter",
   str "hash-scroll",
   str "mp-available-session__show-detail",
   str "mp-available-session__hide-detail"]

/-- The descriptor string `fmt.Sprintf("<a href=\"%s\" class=\"%s\"
title=\"%s\">", href, class, title)` built for a disqualifying anchor,
with the `title` attribute defaulting to the literal `No title`. -/
def anchorDescriptor (a : Anchor) : Str :=
  str "<a href=\"" ++ attrD a.href ++ str "\" class=\"" ++ attrD a.classAttr ++
  str "\" title=\"" ++ attrOr a.title (str "No title") ++ str "\">"

/-- One iteration of the `doc.Find("a").Each` loop in
`checkSelfReferencingLinks`: when `href` is exactly `#` and the class
value is not a key of `ignoredClasses`, set `found` and append the
descriptor to `anchorDetails`. -/
def scanStep (st : Bool × List Str) (a : Anchor) : Bool × List Str :=
  if attrD a.href = str "#" ∧ attrD a.classAttr ∉ ignoredClasses then
    (true, st.2 ++ [anchorDescriptor a])
  else st

/-- The `Each` loop of `checkSelfReferencingLinks`, threading
`(found, anchorDetails)` over the anchors in document order. -/
def anchorScan (anchors : List Anchor) : Bool × List Str :=
  anchors.foldl scanStep (false, [])

/-- `strings.Join(l, ",")`. -/
def strJoinComma : List Str → Str
  | [] => []
  | [x] => x
  | x :: xs => x ++ str "," ++ strJoinComma xs

/-- `checkSelfReferencingLinks`: returns `found` and the comma-joined
anchor details. -/
def checkSelfReferencingLinks (doc : HtmlDoc) : Bool × Str :=
  let st := anchorScan doc.anchors
  (st.1, strJoinComma st.2)

/-- The `PageInfo` record of `scraper.go`. `LoadTime` is a
`time.Duration` in nanoseconds, modelled as a natural number (elapsed
wall-clock time is non-negative); `AnchorDetails` is the comma-joined
descriptor string, exactly as stored by the code. -/
structure PageInfo where
  url : Str
  title : Str
  statusCode : Int
  loadTime : Nat
  selfReferencingURL : Bool
  anchorDetails : Str
deriving DecidableEq, Repr

/-- Outcome of `http.Get` plus body parsing for one URL:
`fetchErr` is a transport failure of `http.Get`; `parseErr` is a
`goquery.NewDocumentFromReader` failure, carrying the response status
and the measured load time; `ok` carries status, load time and the
parsed document. -/
inductive FetchOutcome where
  | fetchErr
  | parseErr (status : Int) (load : Nat)
  | ok (status : Int) (load : Nat) (doc : HtmlDoc)

/-- The websocket text events the session writes, in structured form. -/
inductive Event where
  | processing (url : Str)
  | progress (pct : Nat)
  | completed
  | downloadLink
  | csvError
  | outputFileError
deriving DecidableEq, Repr

/-- The exact text of each event as written by `conn.WriteMessage`. -/
def renderEvent : Event → Str
  | .processing u => str "Processing: " ++ u
  | .progress p => str "Progress: " ++ str (toString p) ++ str "%"
  | .completed => str "Processing completed"
  | .downloadLink => str "Download link: /download/output.csv"
  | .csvError => str "Error reading CSV file"
  | .outputFileError => str "Error creating output file"

/-- Floor of the base-2 logarithm of a positive natural, by fuel
recursion (exact when `n ≤ fuel`). -/
def log2Fuel : Nat → Nat → Nat
  | 0, _ => 0
  | fuel + 1, n => if n ≤ 1 then 0 else log2Fuel fuel (n / 2) + 1

/-- Floor of the base-2 logarithm of a positive natural. -/
def log2n (n : Nat) : Nat := log2Fuel n n

/-- Powers of two as rationals, for integer exponents. -/
def pow2 : Int → ℚ
  | .ofNat n => ((2 ^ n : Nat) : ℚ)
  | .negSucc n => ((2 ^ (n + 1) : Nat) : ℚ)⁻¹

/-- Binade exponent of a positive rational: the unique e with
2^e ≤ q < 2^(e+1). -/
def expOf (q : ℚ) : Int :=
  if q.num < (q.den : Int) then -((log2n ((q.den - 1) / q.num.toNat) + 1 : Nat) : Int)
  else ((log2n (q.num.toNat / q.den) : Nat) : Int)

/-- Round a rational to the nearest integer, ties to even. -/
def rhe (r : ℚ) : Int :=
  let n := ⌊r⌋
  if r - n < 1/2 then n
  else if 1/2 < r - n then n + 1
  else if 2 ∣ n then n else n + 1

/-- Round a positive rational to the nearest IEEE binary64 value
(round to nearest, ties to even), assuming the binary64 normal range:
subnormals and overflow are not modelled, as no realizable session
(any Go slice length as `totalUrls`) leaves the normal range.
Nonpositive inputs map to 0 (only 0 itself arises here). -/
def roundD (q : ℚ) : ℚ :=
  if 0 < q then (rhe (q / pow2 (expOf q - 52)) : ℚ) * pow2 (expOf q - 52) else 0

/-- The progress value `int(float64(i+1) / float64(totalUrls) * 100)`
of `wsHandler`, in IEEE binary64 semantics: the two int-to-float
conversions, the division and the multiplication are each correctly
rounded (`roundD`), and the final `int` conversion truncates (floor, as
the value is nonnegative). -/
def goProgress (i total : Nat) : Nat :=
  (⌊roundD (roundD (roundD ((i : ℚ) + 1) / roundD ((total : ℚ))) * 100)⌋).toNat

/-- One iteration of the fetch loop of `wsHandler` for the `i`-th URL
(0-indexed) of `total`: emit `Processing`, fetch, and either append an
error placeholder record (and `continue`, skipping the progress write)
or append the full record and emit `Progress`. Returns the events
written and the `PageInfo` appended. -/
def stepURL (fetch : Str → FetchOutcome) (total i : Nat) (u : Str) :
    List Event × PageInfo :=
  match fetch u with
  | .fetchErr =>
    ([.processing u],
     { url := u, title := str "Error", statusCode := 0, loadTime := 0,
       selfReferencingURL := false, anchorDetails := [] })
  | .parseErr status load =>
    ([.processing u],
     { url := u, title := str "Error", statusCode := status, loadTime := load,
       selfReferencingURL := false, anchorDetails := [] })
  | .ok status load doc =>
    let res := checkSelfReferencingLinks doc
    ([.processing u, .progress (goProgress i total)],
     { url := u, title := titleTextOf doc, statusCode := status,
       loadTime := load, selfReferencingURL := res.1, anchorDetails := res.2 })

/-- The fetch loop of `wsHandler` from index `i` on: events written and
records appended, in order. -/
def processFrom (fetch : Str → FetchOutcome) (total : Nat) :
    Nat → List Str → List Event × List PageInfo
  | _, [] => ([], [])
  | i, u :: rest =>
    let s := stepURL fetch total i u
    let t := processFrom fetch total (i + 1) rest
    (s.1 ++ t.1, s.2 :: t.2)

/-- The fixed header row written to `output.csv`. -/
def headerRow : List Str :=
  [str "URL", str "Title", str "Status Code", str "Load Time (ms)",
   str "Self-Referencing URL with #", str "Anchor Details"]

/-- `fmt.Sprintf("%t", b)`. -/
def boolStr (b : Bool) : Str := if b then str "true" else str "false"

/-- One data row of `output.csv` for a `PageInfo`: URL, title, status
code, load time in whole milliseconds (`Duration.Milliseconds`), the
flag as a Boolean literal, and the joined anchor details. -/
def recordRow (p : PageInfo) : List Str :=
  [p.url, p.title, str (toString p.statusCode),
   str (toString (p.loadTime / 1000000)), boolStr p.selfReferencingURL,
   p.anchorDetails]

/-- The report: header row, then one row per aggregated record. -/
def reportOf (rs : List PageInfo) : List (List Str) :=
  headerRow :: rs.map recordRow

/-- Observable outcome of one `wsHandler` session: the events written to
the websocket, and the written report rows (`none` when no report file
was created). -/
structure SessionResult where
  events : List Event
  report : Option (List (List Str))
deriving DecidableEq, Repr

/-- The core of `wsHandler`, from CSV decode to report export. On a CSV
decode error the session writes one error event and returns before any
fetch and before the output file is created. Otherwise it collects the
normalized URLs, runs the fetch loop, and (when `os.Create` succeeds,
oracle `exportOk`) writes the report and the completion events; when
`os.Create` fails it writes one error event and returns. -/
def wsSession (csv : CsvResult) (fetch : Str → FetchOutcome)
    (exportOk : Bool) : SessionResult :=
  match csv with
  | .err _ => { events := [.csvError], report := none }
  | .ok recs =>
    let urls := extractURLs recs
    let total := urls.length
    let pr := processFrom fetch total 0 urls
    if exportOk then
      { events := pr.1 ++ [.completed, .downloadLink],
        report := some (reportOf pr.2) }
    else
      { events := pr.1 ++ [.outputFileError], report := none }

/-- The percentages of the `Progress` events of an event list, in order. -/
def progressValues (evs : List Event) : List Nat :=
  evs.filterMap (fun e => match e with | .progress p => some p | _ => none)


/-- Modelled from the spec: the normalization order as C7 words it,
stripping a leading byte-order mark first and then trimming surrounding
white space; compared against the code's `removeBOM (trimSpace ·)`. -/
def specNormalize (s : Str) : Str := trimSpace (removeBOM s)


lemma log2Fuel_spec : ∀ (fuel n : Nat), 1 ≤ n → n ≤ fuel →
    2 ^ log2Fuel fuel n ≤ n ∧ n < 2 ^ (log2Fuel fuel n + 1) := by
  intro fuel
  induction fuel with
  | zero => intro n h1 h2; omega
  | succ fuel ih =>
    intro n h1 h2
    simp only [log2Fuel]
    by_cases hn : n ≤ 1
    · have hn1 : n = 1 := by omega
      subst hn1; simp
    · rw [if_neg hn]
      have hrec := ih (n / 2) (by omega) (by omega)
      set k := log2Fuel fuel (n / 2) with hk
      have hp1 : 2 ^ (k + 1) = 2 * 2 ^ k := by rw [pow_succ]; ring
      have hp2 : 2 ^ (k + 1 + 1) = 2 * 2 ^ (k + 1) := by rw [pow_succ]; ring
      omega

lemma log2n_spec (n : Nat) (h : 1 ≤ n) :
    2 ^ log2n n ≤ n ∧ n < 2 ^ (log2n n + 1) :=
  log2Fuel_spec n n h le_rfl

lemma pow2_eq_zpow (e : Int) : pow2 e = (2 : ℚ) ^ e := by
  cases e with
  | ofNat n =>
    show ((2 ^ n : Nat) : ℚ) = (2 : ℚ) ^ (n : ℤ)
    rw [zpow_natCast]; push_cast; ring
  | negSucc n =>
    show ((2 ^ (n + 1) : Nat) : ℚ)⁻¹ = (2 : ℚ) ^ (Int.negSucc n)
    rw [zpow_negSucc]; push_cast; ring

lemma pow2_pos (e : Int) : 0 < pow2 e := by
  rw [pow2_eq_zpow]; exact zpow_pos (by norm_num) e

lemma pow2_le_pow2 {a b : Int} (h : a ≤ b) : pow2 a ≤ pow2 b := by
  rw [pow2_eq_zpow, pow2_eq_zpow]
  exact zpow_le_zpow_right₀ (by norm_num) h

lemma expOf_spec (q : ℚ) (hq : 0 < q) :
    pow2 (expOf q) ≤ q ∧ q < pow2 (expOf q + 1) := by
  have hnum : 0 < q.num := Rat.num_pos.mpr hq
  have hden : 0 < q.den := q.den_pos
  set n : Nat := q.num.toNat with hn
  have hn1 : 1 ≤ n := by
    have := Int.toNat_of_nonneg hnum.le
    omega
  have hnum_n : (q.num : ℚ) = (n : ℚ) := by
    rw [hn]; exact_mod_cast (Int.toNat_of_nonneg hnum.le).symm
  have hq_eq : q = (n : ℚ) / (q.den : ℚ) := by
    rw [← hnum_n, Rat.num_div_den q]
  have hdQ : (0 : ℚ) < (q.den : ℚ) := by exact_mod_cast hden
  by_cases hlt : q.num < (q.den : Int)
  · -- q < 1 : negative exponent
    have hnd : n < q.den := by omega
    set t : Nat := (q.den - 1) / n with ht
    have ht1 : 1 ≤ t := by
      rw [ht, Nat.one_le_div_iff (by omega)]
      omega
    have hts := log2n_spec t ht1
    set k := log2n t with hkdef
    have e_eq : expOf q = -((k + 1 : Nat) : Int) := by
      rw [expOf, if_pos hlt]
    rw [e_eq]
    constructor
    · -- pow2 (-(k+1)) ≤ n / den  ⟸  den ≤ n * 2^(k+1)
      have hnat : q.den ≤ n * 2 ^ (k + 1) := by
        have hlt2 := hts.2
        rw [ht, Nat.div_lt_iff_lt_mul (by omega : 0 < n),
          Nat.mul_comm (2 ^ (k + 1)) n] at hlt2
        omega
      have hp2 : pow2 (-((k + 1 : Nat) : Int)) = ((2 ^ (k + 1) : Nat) : ℚ)⁻¹ := by
        rw [pow2_eq_zpow, zpow_neg, zpow_natCast]
        push_cast; ring
      rw [hp2, hq_eq, inv_eq_one_div, div_le_div_iff₀ (by positivity) hdQ, one_mul]
      exact_mod_cast hnat
    · -- n / den < pow2 (-(k+1)+1) = pow2 (-k)  ⟸  n * 2^k < den
      have hnat : n * 2 ^ k < q.den := by
        have h1 : n * t ≤ q.den - 1 := by
          rw [ht, Nat.mul_comm]
          exact Nat.div_mul_le_self _ _
        have h2 : n * 2 ^ k ≤ n * t := Nat.mul_le_mul (le_refl n) hts.1
        omega
      have he1 : (-((k + 1 : Nat) : Int) + 1) = -(k : Int) := by push_cast; ring
      have hp2 : pow2 (-(k : Int)) = ((2 ^ k : Nat) : ℚ)⁻¹ := by
        rw [pow2_eq_zpow, zpow_neg, zpow_natCast]
        push_cast; ring
      rw [he1, hp2, hq_eq, inv_eq_one_div, div_lt_div_iff₀ hdQ (by positivity), one_mul]
      exact_mod_cast hnat
  · -- q ≥ 1 : nonnegative exponent
    have hnd : q.den ≤ n := by omega
    set d : Nat := n / q.den with hd
    have hd1 : 1 ≤ d := by
      rw [hd, Nat.one_le_div_iff hden]; exact hnd
    have hds := log2n_spec d hd1
    set k := log2n d with hkdef
    have e_eq : expOf q = ((k : Nat) : Int) := by
      rw [expOf, if_neg hlt]
    rw [e_eq]
    constructor
    · have hnat : 2 ^ k * q.den ≤ n := by
        rw [← Nat.le_div_iff_mul_le hden]
        exact hds.1
      have hp2 : pow2 ((k : Nat) : Int) = ((2 ^ k : Nat) : ℚ) := by
        rw [pow2_eq_zpow, zpow_natCast]; push_cast; ring
      rw [hp2, hq_eq, le_div_iff₀ hdQ]
      exact_mod_cast hnat
    · have hnat : n < 2 ^ (k + 1) * q.den := by
        rw [← Nat.div_lt_iff_lt_mul hden]
        exact hds.2
      have he1 : ((k : Nat) : Int) + 1 = ((k + 1 : Nat) : Int) := by push_cast; ring
      have hp2 : pow2 ((k + 1 : Nat) : Int) = ((2 ^ (k + 1) : Nat) : ℚ) := by
        rw [pow2_eq_zpow, zpow_natCast]; push_cast; ring
      rw [he1, hp2, hq_eq, div_lt_iff₀ hdQ]
      exact_mod_cast hnat

lemma expOf_unique (q : ℚ) (e : Int) (hq : 0 < q)
    (hlb : pow2 e ≤ q) (hub : q < pow2 (e + 1)) : expOf q = e := by
  have hs := expOf_spec q hq
  have h1 : pow2 (expOf q) < pow2 (e + 1) := lt_of_le_of_lt hs.1 hub
  have h2 : pow2 e < pow2 (expOf q + 1) := lt_of_le_of_lt hlb hs.2
  rw [pow2_eq_zpow, pow2_eq_zpow] at h1 h2
  have h1' := (zpow_lt_zpow_iff_right₀ (by norm_num : (1:ℚ) < 2)).mp h1
  have h2' := (zpow_lt_zpow_iff_right₀ (by norm_num : (1:ℚ) < 2)).mp h2
  omega

lemma rhe_le (r : ℚ) : (rhe r : ℚ) ≤ r + 1/2 := by
  have hf1 : ((⌊r⌋ : ℤ) : ℚ) ≤ r := Int.floor_le r
  have hf2 : r < (⌊r⌋ : ℚ) + 1 := Int.lt_floor_add_one r
  rw [rhe]
  split_ifs <;> push_cast <;> linarith

lemma rhe_ge (r : ℚ) : r - 1/2 ≤ (rhe r : ℚ) := by
  have hf1 : ((⌊r⌋ : ℤ) : ℚ) ≤ r := Int.floor_le r
  have hf2 : r < (⌊r⌋ : ℚ) + 1 := Int.lt_floor_add_one r
  rw [rhe]
  split_ifs with h1 h2 <;> push_cast <;> linarith

lemma rhe_mono {r s : ℚ} (h : r ≤ s) : rhe r ≤ rhe s := by
  by_contra hc
  push_neg at hc
  have h1 : (rhe r : ℚ) ≤ r + 1/2 := rhe_le r
  have h2 : s - 1/2 ≤ (rhe s : ℚ) := rhe_ge s
  have h3 : (rhe s : ℚ) + 1 ≤ (rhe r : ℚ) := by exact_mod_cast hc
  have hrs : r = s := le_antisymm h (by linarith)
  subst hrs
  omega

lemma rhe_intCast (n : Int) : rhe ((n : ℚ)) = n := by
  rw [rhe]
  have hfl : ⌊(n : ℚ)⌋ = n := Int.floor_intCast n
  rw [hfl, if_pos]
  rw [sub_self]
  norm_num

lemma rhe_eq_of {r : ℚ} {n : Int} (h1 : (n : ℚ) ≤ r) (h2 : r < (n : ℚ) + 1/2) :
    rhe r = n := by
  have hfl : ⌊r⌋ = n := Int.floor_eq_iff.mpr ⟨h1, by linarith⟩
  rw [rhe, hfl, if_pos (by linarith)]

lemma roundD_of_pos {q : ℚ} (hq : 0 < q) :
    roundD q = (rhe (q / pow2 (expOf q - 52)) : ℚ) * pow2 (expOf q - 52) := by
  rw [roundD, if_pos hq]

lemma pow2_mul_pow2 (a b : Int) : pow2 a * pow2 b = pow2 (a + b) := by
  rw [pow2_eq_zpow, pow2_eq_zpow, pow2_eq_zpow, ← zpow_add₀ (by norm_num : (2:ℚ) ≠ 0)]

lemma rhe_scaled_lb {q : ℚ} (hq : 0 < q) :
    (2 : Int) ^ 52 ≤ rhe (q / pow2 (expOf q - 52)) := by
  have hu : (0 : ℚ) < pow2 (expOf q - 52) := pow2_pos _
  have hlb : ((2 : Int) ^ 52 : ℚ) ≤ q / pow2 (expOf q - 52) := by
    rw [le_div_iff₀ hu]
    calc ((2 : Int) ^ 52 : ℚ) * pow2 (expOf q - 52)
        = pow2 52 * pow2 (expOf q - 52) := by
          norm_num [pow2_eq_zpow]
      _ = pow2 (expOf q) := by rw [pow2_mul_pow2]; congr 1; omega
      _ ≤ q := (expOf_spec q hq).1
  have := rhe_ge (q / pow2 (expOf q - 52))
  have h2 : ((2 : Int) ^ 52 : ℚ) - 1/2 ≤ (rhe (q / pow2 (expOf q - 52)) : ℚ) := by
    linarith
  by_contra hc
  push_neg at hc
  have : ((rhe (q / pow2 (expOf q - 52)) : Int) : ℚ) ≤ ((2:Int)^52 : ℚ) - 1 := by
    exact_mod_cast Int.le_sub_one_of_lt hc
  linarith

lemma rhe_scaled_ub {q : ℚ} (hq : 0 < q) :
    rhe (q / pow2 (expOf q - 52)) ≤ (2 : Int) ^ 53 := by
  have hu : (0 : ℚ) < pow2 (expOf q - 52) := pow2_pos _
  have hub : q / pow2 (expOf q - 52) < ((2 : Int) ^ 53 : ℚ) := by
    rw [div_lt_iff₀ hu]
    calc q < pow2 (expOf q + 1) := (expOf_spec q hq).2
      _ = pow2 53 * pow2 (expOf q - 52) := by rw [pow2_mul_pow2]; congr 1; omega
      _ = ((2 : Int) ^ 53 : ℚ) * pow2 (expOf q - 52) := by
          norm_num [pow2_eq_zpow]
  have := rhe_le (q / pow2 (expOf q - 52))
  have h2 : (rhe (q / pow2 (expOf q - 52)) : ℚ) < ((2:Int)^53 : ℚ) + 1/2 := by
    linarith
  by_contra hc
  push_neg at hc
  have : ((2:Int)^53 : ℚ) + 1 ≤ ((rhe (q / pow2 (expOf q - 52)) : Int) : ℚ) := by
    exact_mod_cast Int.add_one_le_of_lt hc
  linarith

lemma roundD_nonneg (q : ℚ) : 0 ≤ roundD q := by
  by_cases hq : 0 < q
  · rw [roundD_of_pos hq]
    have h1 := rhe_scaled_lb hq
    have h2 : (0 : ℚ) ≤ (rhe (q / pow2 (expOf q - 52)) : ℚ) := by
      have : (0 : Int) ≤ rhe (q / pow2 (expOf q - 52)) := le_trans (by norm_num) h1
      exact_mod_cast this
    exact mul_nonneg h2 (pow2_pos _).le
  · rw [roundD, if_neg hq]

lemma roundD_lb {q : ℚ} (hq : 0 < q) : pow2 (expOf q) ≤ roundD q := by
  rw [roundD_of_pos hq]
  have h1 := rhe_scaled_lb hq
  calc pow2 (expOf q) = pow2 52 * pow2 (expOf q - 52) := by
        rw [pow2_mul_pow2]; congr 1; omega
    _ = ((2:Int)^52 : ℚ) * pow2 (expOf q - 52) := by norm_num [pow2_eq_zpow]
    _ ≤ (rhe (q / pow2 (expOf q - 52)) : ℚ) * pow2 (expOf q - 52) := by
        have : ((2:Int)^52 : ℚ) ≤ (rhe (q / pow2 (expOf q - 52)) : ℚ) := by
          exact_mod_cast h1
        exact mul_le_mul_of_nonneg_right this (pow2_pos _).le

lemma roundD_ub {q : ℚ} (hq : 0 < q) : roundD q ≤ pow2 (expOf q + 1) := by
  rw [roundD_of_pos hq]
  have h1 := rhe_scaled_ub hq
  calc (rhe (q / pow2 (expOf q - 52)) : ℚ) * pow2 (expOf q - 52)
      ≤ ((2:Int)^53 : ℚ) * pow2 (expOf q - 52) := by
        have : (rhe (q / pow2 (expOf q - 52)) : ℚ) ≤ ((2:Int)^53 : ℚ) := by
          exact_mod_cast h1
        exact mul_le_mul_of_nonneg_right this (pow2_pos _).le
    _ = pow2 53 * pow2 (expOf q - 52) := by norm_num [pow2_eq_zpow]
    _ = pow2 (expOf q + 1) := by rw [pow2_mul_pow2]; congr 1; omega

lemma roundD_pos {q : ℚ} (hq : 0 < q) : 0 < roundD q :=
  lt_of_lt_of_le (pow2_pos _) (roundD_lb hq)

lemma expOf_mono {q s : ℚ} (hq : 0 < q) (h : q ≤ s) : expOf q ≤ expOf s := by
  have hs : 0 < s := lt_of_lt_of_le hq h
  have h1 : pow2 (expOf q) < pow2 (expOf s + 1) :=
    lt_of_le_of_lt (le_trans (expOf_spec q hq).1 h) (expOf_spec s hs).2
  rw [pow2_eq_zpow, pow2_eq_zpow] at h1
  have := (zpow_lt_zpow_iff_right₀ (by norm_num : (1:ℚ) < 2)).mp h1
  omega

lemma roundD_mono {q s : ℚ} (h : q ≤ s) : roundD q ≤ roundD s := by
  by_cases hq : 0 < q
  · have hs : 0 < s := lt_of_lt_of_le hq h
    rcases lt_or_eq_of_le (expOf_mono hq h) with hlt | heq
    · calc roundD q ≤ pow2 (expOf q + 1) := roundD_ub hq
        _ ≤ pow2 (expOf s) := pow2_le_pow2 (by omega)
        _ ≤ roundD s := roundD_lb hs
    · rw [roundD_of_pos hq, roundD_of_pos hs, heq]
      have hdiv : q / pow2 (expOf s - 52) ≤ s / pow2 (expOf s - 52) :=
        (div_le_div_iff_of_pos_right (pow2_pos _)).mpr h
      have := rhe_mono hdiv
      exact mul_le_mul_of_nonneg_right (by exact_mod_cast this) (pow2_pos _).le
  · rw [roundD, if_neg hq]
    exact roundD_nonneg s

lemma roundD_eval (q : ℚ) (e m : Int) (hq : 0 < q)
    (hlb : pow2 e ≤ q) (hub : q < pow2 (e + 1))
    (h1 : (m : ℚ) ≤ q / pow2 (e - 52)) (h2 : q / pow2 (e - 52) < (m : ℚ) + 1/2) :
    roundD q = (m : ℚ) * pow2 (e - 52) := by
  have hexp : expOf q = e := expOf_unique q e hq hlb hub
  rw [roundD_of_pos hq, hexp, rhe_eq_of h1 h2]

lemma goProgress_succ_le (i N : Nat) : goProgress i N ≤ goProgress (i + 1) N := by
  have h1 : roundD ((i : ℚ) + 1) ≤ roundD (((i + 1 : Nat) : ℚ) + 1) :=
    roundD_mono (by push_cast; linarith)
  have h2 : roundD ((i : ℚ) + 1) / roundD ((N : ℚ)) ≤
      roundD (((i + 1 : Nat) : ℚ) + 1) / roundD ((N : ℚ)) := by
    rcases eq_or_lt_of_le (roundD_nonneg ((N : ℚ))) with h0 | hpos
    · rw [← h0]; simp
    · exact (div_le_div_iff_of_pos_right hpos).mpr h1
  have h3 := roundD_mono h2
  have h4 : roundD (roundD ((i : ℚ) + 1) / roundD ((N : ℚ))) * 100 ≤
      roundD (roundD (((i + 1 : Nat) : ℚ) + 1) / roundD ((N : ℚ))) * 100 :=
    mul_le_mul_of_nonneg_right h3 (by norm_num)
  have h5 := roundD_mono h4
  have h6 := Int.floor_mono h5
  exact Int.toNat_le_toNat h6

lemma goProgress_28_100 : goProgress 28 100 = 28 := by
  have hp4 : pow2 4 = 16 := by show ((2 ^ 4 : Nat) : ℚ) = 16; norm_num
  have hp5 : pow2 (4 + 1) = 32 := by show ((2 ^ 5 : Nat) : ℚ) = 32; norm_num
  have hp6 : pow2 6 = 64 := by show ((2 ^ 6 : Nat) : ℚ) = 64; norm_num
  have hp7 : pow2 (6 + 1) = 128 := by show ((2 ^ 7 : Nat) : ℚ) = 128; norm_num
  have hpm2 : pow2 (-2) = ((2 : ℚ) ^ 2)⁻¹ := by
    show ((2 ^ 2 : Nat) : ℚ)⁻¹ = ((2 : ℚ) ^ 2)⁻¹; norm_num
  have hpm1 : pow2 (-2 + 1) = ((2 : ℚ) ^ 1)⁻¹ := by
    show ((2 ^ 1 : Nat) : ℚ)⁻¹ = ((2 : ℚ) ^ 1)⁻¹; norm_num
  have hp48 : pow2 (4 - 52) = ((2 : ℚ) ^ 48)⁻¹ := by
    show ((2 ^ 48 : Nat) : ℚ)⁻¹ = ((2 : ℚ) ^ 48)⁻¹; norm_num
  have hp46 : pow2 (6 - 52) = ((2 : ℚ) ^ 46)⁻¹ := by
    show ((2 ^ 46 : Nat) : ℚ)⁻¹ = ((2 : ℚ) ^ 46)⁻¹; norm_num
  have hp54 : pow2 (-2 - 52) = ((2 : ℚ) ^ 54)⁻¹ := by
    show ((2 ^ 54 : Nat) : ℚ)⁻¹ = ((2 : ℚ) ^ 54)⁻¹; norm_num
  have r29 : roundD (29 : ℚ) = 29 := by
    have h := roundD_eval (29 : ℚ) 4 (29 * 2 ^ 48) (by norm_num)
      (by rw [hp4]; norm_num) (by rw [hp5]; norm_num)
      (by rw [hp48]; push_cast; norm_num)
      (by rw [hp48]; push_cast; norm_num)
    rw [h, hp48]; push_cast; norm_num
  have r100 : roundD (100 : ℚ) = 100 := by
    have h := roundD_eval (100 : ℚ) 6 (100 * 2 ^ 46) (by norm_num)
      (by rw [hp6]; norm_num) (by rw [hp7]; norm_num)
      (by rw [hp46]; push_cast; norm_num)
      (by rw [hp46]; push_cast; norm_num)
    rw [h, hp46]; push_cast; norm_num
  have rdiv : roundD ((29 : ℚ) / 100) = 5224175567749775 * ((2 : ℚ) ^ 54)⁻¹ := by
    have h := roundD_eval ((29 : ℚ) / 100) (-2) 5224175567749775 (by norm_num)
      (by rw [hpm2]; norm_num) (by rw [hpm1]; norm_num)
      (by rw [hp54]; push_cast; norm_num)
      (by rw [hp54]; push_cast; norm_num)
    rw [h, hp54]; push_cast; norm_num
  have rmul : roundD (5224175567749775 * ((2 : ℚ) ^ 54)⁻¹ * 100) =
      8162774324609023 * ((2 : ℚ) ^ 48)⁻¹ := by
    have h := roundD_eval (5224175567749775 * ((2 : ℚ) ^ 54)⁻¹ * 100) 4
      8162774324609023 (by positivity)
      (by rw [hp4]; norm_num) (by rw [hp5]; norm_num)
      (by rw [hp48]; push_cast; norm_num)
      (by rw [hp48]; push_cast; norm_num)
    rw [h, hp48]; push_cast; norm_num
  show (⌊roundD (roundD (roundD (((28 : Nat) : ℚ) + 1) / roundD (((100 : Nat) : ℚ))) * 100)⌋).toNat = 28
  have hc1 : ((28 : Nat) : ℚ) + 1 = (29 : ℚ) := by norm_num
  have hc2 : ((100 : Nat) : ℚ) = (100 : ℚ) := by norm_num
  rw [hc1, hc2, r29, r100, rdiv, rmul]
  have hfl : ⌊(8162774324609023 : ℚ) * ((2 : ℚ) ^ 48)⁻¹⌋ = 28 := by
    rw [Int.floor_eq_iff]
    constructor <;> push_cast <;> norm_num
  rw [hfl]
  rfl

lemma processFrom_records_length (fetch : Str → FetchOutcome) (N : Nat) :
    ∀ (i : Nat) (l : List Str), (processFrom fetch N i l).2.length = l.length := by
  intro i l
  induction l generalizing i with
  | nil => rfl
  | cons u rest ih => simp [processFrom, ih]

lemma processFrom_records_url (fetch : Str → FetchOutcome) (N : Nat) :
    ∀ (i : Nat) (l : List Str), (processFrom fetch N i l).2.map PageInfo.url = l := by
  intro i l
  induction l generalizing i with
  | nil => rfl
  | cons u rest ih =>
    have hu : (stepURL fetch N i u).2.url = u := by
      cases h : fetch u <;> simp [stepURL, h]
    simp [processFrom, ih, hu]

lemma progressValues_append (a b : List Event) :
    progressValues (a ++ b) = progressValues a ++ progressValues b :=
  List.filterMap_append a b _

lemma anchorScan_foldl (l : List Anchor) (b : Bool) (acc : List Str) :
    l.foldl scanStep (b, acc) = (b || (anchorScan l).1, acc ++ (anchorScan l).2) := by
  induction l generalizing b acc with
  | nil => simp [anchorScan]
  | cons a l ih =>
    by_cases h : attrD a.href = str "#" ∧ attrD a.classAttr ∉ ignoredClasses
    · show l.foldl scanStep (scanStep (b, acc) a) = _
      rw [scanStep, if_pos h, ih]
      have : anchorScan (a :: l) = l.foldl scanStep (scanStep (false, []) a) := rfl
      rw [this, scanStep, if_pos h, ih]
      simp
    · show l.foldl scanStep (scanStep (b, acc) a) = _
      rw [scanStep, if_neg h, ih]
      have : anchorScan (a :: l) = l.foldl scanStep (scanStep (false, []) a) := rfl
      rw [this, scanStep, if_neg h, ih]
      simp

lemma anchorScan_snd (l : List Anchor) :
    (anchorScan l).2 =
      (l.filter (fun a =>
        decide (attrD a.href = str "#" ∧ attrD a.classAttr ∉ ignoredClasses))).map
        anchorDescriptor := by
  induction l with
  | nil => rfl
  | cons a l ih =>
    by_cases h : attrD a.href = str "#" ∧ attrD a.classAttr ∉ ignoredClasses
    · have : anchorScan (a :: l) = l.foldl scanStep (scanStep (false, []) a) := rfl
      rw [this, scanStep, if_pos h, anchorScan_foldl]
      simp [h, ih]
    · have e : anchorScan (a :: l) = l.foldl scanStep (scanStep (false, []) a) := rfl
      rw [e, scanStep, if_neg h]
      show (anchorScan l).2 = _
      rw [ih]
      simp only [List.filter_cons]
      rw [if_neg (by simpa using h)]

lemma anchorScan_fst_iff (l : List Anchor) :
    (anchorScan l).1 = true ↔ (anchorScan l).2 ≠ [] := by
  induction l with
  | nil => simp [anchorScan]
  | cons a l ih =>
    by_cases h : attrD a.href = str "#" ∧ attrD a.classAttr ∉ ignoredClasses
    · have e : anchorScan (a :: l) = l.foldl scanStep (scanStep (false, []) a) := rfl
      rw [e, scanStep, if_pos h, anchorScan_foldl]
      simp
    · have e : anchorScan (a :: l) = l.foldl scanStep (scanStep (false, []) a) := rfl
      rw [e, scanStep, if_neg h, anchorScan_foldl]
      simpa using ih

lemma anchorDescriptor_ne_nil (a : Anchor) : anchorDescriptor a ≠ [] := by
  simp [anchorDescriptor, str]

lemma strJoinComma_eq_nil_iff (l : List Str) (h : ∀ x ∈ l, x ≠ []) :
    strJoinComma l = [] ↔ l = [] := by
  match l with
  | [] => simp [strJoinComma]
  | [x] =>
    simp only [strJoinComma]
    constructor
    · intro hx; exact absurd hx (h x (by simp))
    · intro hx; simp at hx
  | x :: y :: ys =>
    simp only [strJoinComma]
    constructor
    · intro hx
      rcases List.append_eq_nil.mp hx with ⟨hx1, -⟩
      rcases List.append_eq_nil.mp hx1 with ⟨-, hx2⟩
      exact absurd hx2 (by decide)
    · intro hx; simp at hx

lemma checkSelf_found_iff (doc : HtmlDoc) :
    (checkSelfReferencingLinks doc).1 = true ↔
    (checkSelfReferencingLinks doc).2 ≠ [] := by
  show (anchorScan doc.anchors).1 = true ↔ strJoinComma (anchorScan doc.anchors).2 ≠ []
  rw [anchorScan_fst_iff]
  have hne : ∀ x ∈ (anchorScan doc.anchors).2, x ≠ [] := by
    rw [anchorScan_snd]
    intro x hx
    obtain ⟨a, _, rfl⟩ := List.mem_map.mp hx
    exact anchorDescriptor_ne_nil a
  exact not_congr (strJoinComma_eq_nil_iff _ hne).symm

lemma progressValues_step (fetch : Str → FetchOutcome) (N i : Nat) (u : Str) :
    progressValues (stepURL fetch N i u).1 =
      match fetch u with
      | .ok _ _ _ => [goProgress i N]
      | _ => [] := by
  cases h : fetch u <;> simp [stepURL, h, progressValues]

lemma progressValues_processFrom_lb (fetch : Str → FetchOutcome) (N : Nat)
    (l : List Str) :
    ∀ i, ∀ p ∈ progressValues (processFrom fetch N i l).1, goProgress i N ≤ p := by
  induction l with
  | nil => intro i p hp; simp [processFrom, progressValues] at hp
  | cons u rest ih =>
    intro i p hp
    have e : (processFrom fetch N i (u :: rest)).1 =
        (stepURL fetch N i u).1 ++ (processFrom fetch N (i + 1) rest).1 := rfl
    rw [e, progressValues_append] at hp
    rcases List.mem_append.mp hp with hp1 | hp2
    · rw [progressValues_step] at hp1
      cases h : fetch u <;> rw [h] at hp1 <;> simp at hp1
      exact hp1.ge
    · have h2 := ih (i + 1) p hp2
      calc goProgress i N ≤ goProgress (i + 1) N := goProgress_succ_le i N
        _ ≤ p := h2

lemma progressValues_processFrom_sorted (fetch : Str → FetchOutcome) (N : Nat)
    (l : List Str) :
    ∀ i, (progressValues (processFrom fetch N i l).1).Sorted (· ≤ ·) := by
  induction l with
  | nil => intro i; simp [processFrom, progressValues]
  | cons u rest ih =>
    intro i
    have e : (processFrom fetch N i (u :: rest)).1 =
        (stepURL fetch N i u).1 ++ (processFrom fetch N (i + 1) rest).1 := rfl
    rw [e, progressValues_append, progressValues_step]
    cases h : fetch u
    case ok s ld doc =>
      simp only [List.singleton_append]
      rw [List.sorted_cons]
      refine ⟨fun p hp => ?_, ih (i + 1)⟩
      calc goProgress i N ≤ goProgress (i + 1) N := goProgress_succ_le i N
        _ ≤ p := progressValues_processFrom_lb fetch N rest (i + 1) p hp
    all_goals simpa using ih (i + 1)

lemma processFrom_events (fetch : Str → FetchOutcome) (N : Nat) (l : List Str) :
    ∀ i, (processFrom fetch N i l).1 =
      ((List.enumFrom i l).map (fun p => (stepURL fetch N p.1 p.2).1)).flatten := by
  induction l with
  | nil => intro i; rfl
  | cons u rest ih => intro i; simp [processFrom, List.enumFrom, ih (i + 1)]

lemma extractURLs_eq_of_firsts :
    ∀ (r1 r2 : List CsvRecord), r1.map CsvRecord.first = r2.map CsvRecord.first →
      extractURLs r1 = extractURLs r2 := by
  intro r1
  induction r1 with
  | nil => intro r2 h; cases r2 with
    | nil => rfl
    | cons b bs => simp at h
  | cons a as ih =>
    intro r2 h
    cases r2 with
    | nil => simp at h
    | cons b bs =>
      simp only [List.map_cons, List.cons.injEq] at h
      simp only [extractURLs, h.1, ih bs h.2]

/-- C1: for every decoded batch, the exported report is the fixed header
row followed by exactly one data row per normalized non-empty URL, in the
order the URLs appear in the input batch (each data row's first field is
the corresponding URL). -/
theorem c1_report_rows (recs : List CsvRecord) (fetch : Str → FetchOutcome) :
    ∃ rows, (wsSession (.ok recs) fetch true).report = some (headerRow :: rows) ∧
      rows.length = (extractURLs recs).length ∧
      rows.map List.head? = (extractURLs recs).map (fun u => some u) := by
  refine ⟨((processFrom fetch (extractURLs recs).length 0
      (extractURLs recs)).2).map recordRow, rfl, ?_, ?_⟩
  · simp [processFrom_records_length]
  · have h1 : (List.head? ∘ recordRow) = fun p : PageInfo => some p.url :=
      funext fun p => rfl
    rw [List.map_map, h1]
    calc (processFrom fetch (extractURLs recs).length 0
          (extractURLs recs)).2.map (fun p : PageInfo => some p.url)
        = ((processFrom fetch (extractURLs recs).length 0
            (extractURLs recs)).2.map PageInfo.url).map (fun u => some u) :=
          (List.map_map _ _ _).symm
      _ = (extractURLs recs).map (fun u => some u) := by
          rw [processFrom_records_url]

/-- C2 (as stated) is false twice over. First, on a one-URL batch whose
fetch fails, a record is produced (the report has a data row for it) but
no Progress event is ever emitted, because the error branch continues to
the next URL before the progress write. Second, the emitted percentage
is `int(float64(i+1)/float64(N)*100)` in IEEE binary64 arithmetic, which
differs from `floor((i+1)/N*100)`: at i = 28 of N = 100 a successful
step emits `Progress: 28%`, while the claimed formula gives 29. -/
theorem c2_counterexample :
    ((wsSession (.ok [⟨str "u", []⟩]) (fun _ => .fetchErr) true).events =
      [.processing (str "u"), .completed, .downloadLink] ∧
    progressValues
      (wsSession (.ok [⟨str "u", []⟩]) (fun _ => .fetchErr) true).events = [] ∧
    (wsSession (.ok [⟨str "u", []⟩]) (fun _ => .fetchErr) true).report =
      some [headerRow, [str "u", str "Error", str "0", str "0", str "false", []]]) ∧
    (stepURL (fun _ => .ok 200 0 ⟨[], []⟩) 100 28 (str "v")).1 =
      [.processing (str "v"), .progress 28] ∧
    (28 + 1) * 100 / 100 = 29 := by
  refine ⟨⟨rfl, rfl, rfl⟩, ?_, rfl⟩
  show [Event.processing (str "v"), Event.progress (goProgress 28 100)] = _
  rw [goProgress_28_100]

/-- C2 amended: per URL `i` of `N`, `Processing` is emitted immediately
before the fetch; a `Progress` event whose percentage is
`int(float64(i+1)/float64(N)*100)` computed in IEEE binary64 arithmetic
(`goProgress`) is emitted immediately after the record only when the
fetch and the HTML parse both succeed (a failed URL emits no Progress
event); the emitted percentages are monotonically non-decreasing across
the session. -/
theorem c2_progress_discipline (recs : List CsvRecord)
    (fetch : Str → FetchOutcome) :
    (wsSession (.ok recs) fetch true).events =
      ((List.enumFrom 0 (extractURLs recs)).map
        (fun p => (stepURL fetch (extractURLs recs).length p.1 p.2).1)).flatten ++
      [.completed, .downloadLink] ∧
    (∀ (i : Nat) (u : Str),
      (stepURL fetch (extractURLs recs).length i u).1 =
        match fetch u with
        | .ok _ _ _ =>
          [.processing u, .progress (goProgress i (extractURLs recs).length)]
        | _ => [.processing u]) ∧
    (progressValues (wsSession (.ok recs) fetch true).events).Sorted (· ≤ ·) := by
  refine ⟨?_, ?_, ?_⟩
  · show (processFrom fetch (extractURLs recs).length 0 (extractURLs recs)).1 ++
      [Event.completed, Event.downloadLink] = _
    rw [processFrom_events]
  · intro i u; cases h : fetch u <;> simp [stepURL, h]
  · show (progressValues
      ((processFrom fetch (extractURLs recs).length 0 (extractURLs recs)).1 ++
        [Event.completed, Event.downloadLink])).Sorted (· ≤ ·)
    rw [progressValues_append]
    have h0 : progressValues [Event.completed, Event.downloadLink] = [] := rfl
    rw [h0, List.append_nil]
    exact progressValues_processFrom_sorted fetch _ _ 0

/-- C3: the per-URL step never aborts the session. A fetch failure yields
the record with title `Error`, status 0, load time 0, flag false and
empty anchor details; a parse failure yields title `Error` with the real
status and load time, flag false and empty details; and the loop still
produces one record for the current URL and every following one. -/
theorem c3_error_records (fetch : Str → FetchOutcome) (N i : Nat) (u : Str) :
    (fetch u = .fetchErr →
      (stepURL fetch N i u).2 =
        { url := u, title := str "Error", statusCode := 0, loadTime := 0,
          selfReferencingURL := false, anchorDetails := [] }) ∧
    (∀ (s : Int) (l : Nat), fetch u = .parseErr s l →
      (stepURL fetch N i u).2 =
        { url := u, title := str "Error", statusCode := s, loadTime := l,
          selfReferencingURL := false, anchorDetails := [] }) ∧
    (∀ rest : List Str,
      (processFrom fetch N i (u :: rest)).2.length = rest.length + 1) := by
  refine ⟨fun h => by simp [stepURL, h], fun s l h => by simp [stepURL, h],
    fun rest => ?_⟩
  simp [processFrom_records_length]

/-- C3 witness: the two failure records at concrete inputs. -/
theorem c3_witness :
    (stepURL (fun _ => .fetchErr) 1 0 (str "u")).2 =
      { url := str "u", title := str "Error", statusCode := 0, loadTime := 0,
        selfReferencingURL := false, anchorDetails := [] } ∧
    (stepURL (fun _ => .parseErr 404 7) 1 0 (str "u")).2 =
      { url := str "u", title := str "Error", statusCode := 404, loadTime := 7,
        selfReferencingURL := false, anchorDetails := [] } :=
  ⟨(c3_error_records (fun _ => .fetchErr) 1 0 (str "u")).1 rfl,
   (c3_error_records (fun _ => .parseErr 404 7) 1 0 (str "u")).2.1 404 7 rfl⟩

/-- C4: a descriptor is appended to the anchor details if and only if the
anchor's `href` is exactly `#` and its whole class-attribute string is
not in the ignore-set (the appended details are exactly the qualifying
anchors' descriptors, in document order); the record stores their
comma-join; and an absent `title` attribute yields the literal
`No title` in the descriptor. -/
theorem c4_disqualifying_anchors (doc : HtmlDoc) :
    (anchorScan doc.anchors).2 =
      (doc.anchors.filter (fun a =>
        decide (attrD a.href = str "#" ∧ attrD a.classAttr ∉ ignoredClasses))).map
        anchorDescriptor ∧
    (checkSelfReferencingLinks doc).2 = strJoinComma (anchorScan doc.anchors).2 ∧
    (∀ a : Anchor, a.title = none →
      anchorDescriptor a =
        str "<a href=\"" ++ attrD a.href ++ str "\" class=\"" ++
        attrD a.classAttr ++ str "\" title=\"" ++ str "No title" ++ str "\">") :=
  ⟨anchorScan_snd doc.anchors, rfl,
   fun a h => by simp [anchorDescriptor, attrOr, h]⟩

/-- C4 witness: scenario with a `cta` anchor (kept) and a
`footer__copy-logo` anchor (ignored), and the `No title` default. -/
theorem c4_witness :
    (anchorScan [⟨some (str "#"), some (str "cta"), none⟩,
        ⟨some (str "#"), some (str "footer__copy-logo"), none⟩]).2 =
      [anchorDescriptor ⟨some (str "#"), some (str "cta"), none⟩] ∧
    anchorDescriptor ⟨some (str "#"), some (str "cta"), none⟩ =
      str "<a href=\"" ++ str "#" ++ str "\" class=\"" ++ str "cta" ++
      str "\" title=\"" ++ str "No title" ++ str "\">" := by
  constructor
  · rw [(c4_disqualifying_anchors ⟨[],
      [⟨some (str "#"), some (str "cta"), none⟩,
       ⟨some (str "#"), some (str "footer__copy-logo"), none⟩]⟩).1]
    decide
  · exact (c4_disqualifying_anchors ⟨[], []⟩).2.2
      ⟨some (str "#"), some (str "cta"), none⟩ rfl

/-- C5: in every record the pipeline produces (fetch failure, parse
failure, or success), the self-referencing flag is true exactly when the
stored anchor details are non-empty. -/
theorem c5_flag_iff_details (fetch : Str → FetchOutcome) (N i : Nat) (u : Str) :
    (stepURL fetch N i u).2.selfReferencingURL = true ↔
    (stepURL fetch N i u).2.anchorDetails ≠ [] := by
  cases h : fetch u with
  | fetchErr => simp [stepURL, h]
  | parseErr s l => simp [stepURL, h]
  | ok s l doc =>
    have e1 : (stepURL fetch N i u).2.selfReferencingURL =
        (checkSelfReferencingLinks doc).1 := by simp [stepURL, h]
    have e2 : (stepURL fetch N i u).2.anchorDetails =
        (checkSelfReferencingLinks doc).2 := by simp [stepURL, h]
    rw [e1, e2]
    exact checkSelf_found_iff doc

/-- C6 (as stated) is false: the code concatenates the text of every
element named `title` (goquery `Find("title").Text()` combines all
matches), so a document whose title elements have texts `A` and `B`
yields the record title `AB`, not the first element's text `A`. -/
theorem c6_counterexample :
    (stepURL (fun _ => .ok 200 0 ⟨[str "A", str "B"], []⟩) 1 0 (str "u")).2.title =
      str "AB" ∧
    ([str "A", str "B"] : List Str).head? = some (str "A") ∧
    str "AB" ≠ str "A" :=
  ⟨rfl, rfl, by decide⟩

/-- C6 amended: on a successful fetch and parse, the record title is the
concatenation of the text contents of all elements named `title`, in
document order; in particular it is the first element's text when there
is exactly one such element, and empty when there is none. -/
theorem c6_title_concat (fetch : Str → FetchOutcome) (N i : Nat) (u : Str)
    (s : Int) (ld : Nat) (doc : HtmlDoc) (h : fetch u = .ok s ld doc) :
    (stepURL fetch N i u).2.title = doc.titleTexts.flatten ∧
    (∀ t, doc.titleTexts = [t] → (stepURL fetch N i u).2.title = t) ∧
    (doc.titleTexts = [] → (stepURL fetch N i u).2.title = []) := by
  have e : (stepURL fetch N i u).2.title = titleTextOf doc := by
    simp [stepURL, h]
  refine ⟨e, fun t ht => ?_, fun ht => ?_⟩
  · rw [e, titleTextOf, ht]; simp
  · rw [e, titleTextOf, ht]; rfl

/-- C6 witness: a single-title document yields that title. -/
theorem c6_witness :
    (stepURL (fun _ => .ok 200 0 ⟨[str "Example"], []⟩) 1 0 (str "u")).2.title =
      str "Example" :=
  (c6_title_concat (fun _ => .ok 200 0 ⟨[str "Example"], []⟩) 1 0 (str "u")
    200 0 ⟨[str "Example"], []⟩ rfl).2.1 (str "Example") rfl

/-- C7 (as stated) is false: the code trims first and strips the BOM
second. On the field `U+FEFF`, space, `x` the code yields the non-empty
string space-`x` (the BOM is stripped only after trimming leaves it in
front), while the claimed order yields `x`. -/
theorem c7_counterexample :
    removeBOM (trimSpace [0xFEFF, 32, 120]) = [32, 120] ∧
    specNormalize [0xFEFF, 32, 120] = [120] ∧
    ([32, 120] : Str) ≠ [120] ∧
    extractURLs [⟨[0xFEFF, 32, 120], []⟩] = [[32, 120]] :=
  ⟨by decide, by decide, by decide, by decide⟩

/-- C7 amended: per record the first field is normalized by trimming
surrounding white space first and then stripping a leading byte-order
mark; the record contributes a URL exactly when that normalized string
is non-empty, and empty-normalizing records are skipped silently. -/
theorem c7_normalization (recs : List CsvRecord) :
    extractURLs recs =
      (recs.map (fun r => removeBOM (trimSpace r.first))).filter
        (fun u => decide (u ≠ [])) := by
  induction recs with
  | nil => rfl
  | cons r rs ih =>
    by_cases h : removeBOM (trimSpace r.first) = []
    · simp [extractURLs, h, ih]
    · simp [extractURLs, h, ih]

/-- C8: when the CSV decode of the batch bytes fails, the session writes
exactly one error event and no report is created; the outcome does not
depend on the fetch oracle, so no fetch can have been issued. -/
theorem c8_decode_error (pre : List CsvRecord)
    (fetch fetch2 : Str → FetchOutcome) (eo : Bool) :
    wsSession (.err pre) fetch eo = { events := [.csvError], report := none } ∧
    wsSession (.err pre) fetch eo = wsSession (.err pre) fetch2 eo :=
  ⟨rfl, rfl⟩

/-- C9: the session observes only the first field of each record: two
decoded batches agreeing on all first fields produce the same URL
sequence and the same session outcome (events and report). -/
theorem c9_first_fields_only (r1 r2 : List CsvRecord)
    (fetch : Str → FetchOutcome) (eo : Bool)
    (h : r1.map CsvRecord.first = r2.map CsvRecord.first) :
    extractURLs r1 = extractURLs r2 ∧
    wsSession (.ok r1) fetch eo = wsSession (.ok r2) fetch eo := by
  have e := extractURLs_eq_of_firsts r1 r2 h
  refine ⟨e, ?_⟩
  simp only [wsSession, e]

/-- C9 witness: a batch with an extra second column equals the batch
without it. -/
theorem c9_witness :
    extractURLs [⟨str "u", [str "extra"]⟩] = extractURLs [⟨str "u", []⟩] ∧
    wsSession (.ok [⟨str "u", [str "extra"]⟩]) (fun _ => .fetchErr) true =
      wsSession (.ok [⟨str "u", []⟩]) (fun _ => .fetchErr) true :=
  c9_first_fields_only [⟨str "u", [str "extra"]⟩] [⟨str "u", []⟩]
    (fun _ => .fetchErr) true rfl

/-- C10: a well-formed batch normalizing to zero URLs still completes:
no Processing or Progress event is emitted (the fetch loop body never
runs, so the percentage division is never reached), the report is the
header row alone, and the completion and download-location events are
written. -/
theorem c10_empty_batch (recs : List CsvRecord) (fetch : Str → FetchOutcome)
    (h : extractURLs recs = []) :
    wsSession (.ok recs) fetch true =
      { events := [.completed, .downloadLink], report := some [headerRow] } := by
  simp [wsSession, h, processFrom, reportOf]

/-- C10 witness: a batch of one all-whitespace record. -/
theorem c10_witness :
    wsSession (.ok [⟨[32], []⟩]) (fun _ => .fetchErr) true =
      { events := [.completed, .downloadLink], report := some [headerRow] } :=
  c10_empty_batch [⟨[32], []⟩] (fun _ => .fetchErr) (by decide)
